import Mathlib

/-!
Verification development for pyaxel (`src/pyaxel/axel.py`).

pyaxel is a parallel, resumable HTTP downloader built around one class,
`Axel`.  This file gives a shallow embedding of its core logic:

* the range planner (`Axel.get_file_info`, lines 69-87): chunk boundary
  arithmetic and output-filename collision resolution;
* the resume reconciler (`Axel.resume_check`, lines 89-123);
* the segment fetcher (`Axel.getter`, lines 134-145), with the HTTP range
  semantics the design assumes of the server;
* the stitcher (`Axel.stitch`, lines 190-197);
* the driver (`Axel.fetch` / `Axel.fetch_n_stitch`, lines 166-201),
  including the gevent pool semantics the driver relies on.

The source is Python 2 (`xrange` at line 73): `/` on non-negative ints is
floor division, so byte arithmetic is modelled with `Nat` division; chunk
end offsets can be `-1` (when `chunk_size` is 0), so offsets live in `Int`.
Python strings are modelled as `List Char`.
-/

namespace Pyaxel

/-- Source line 72: `self.chunk_size = self.content_length / self.count`,
Python 2 floor division of non-negative integers. -/
def chunk_size (contentLength count : Nat) : Nat := contentLength / count

/-- The boundary (inclusive end offset) of chunk `i`, axel.py lines 74-77:
the last chunk's boundary is `self.content_length` itself; every other
chunk's boundary is `((i + 1) * self.chunk_size) - 1`, which is `-1` when
`chunk_size` is 0. -/
def boundary (contentLength count i : Nat) : Int :=
  if i = count - 1 then (contentLength : Int)
  else (((i + 1) * chunk_size contentLength count : Nat) : Int) - 1

/-- The pair appended to `self.chunks` for index `i` (axel.py line 78):
`(i * self.chunk_size, boundary)`. -/
def chunkAt (contentLength count i : Nat) : Int × Int :=
  (((i * chunk_size contentLength count : Nat) : Int), boundary contentLength count i)

/-- Value of `self.chunks` after the loop of `Axel.get_file_info`
(axel.py lines 73-78): one pair per index in `xrange(count)`. -/
def chunks (contentLength count : Nat) : List (Int × Int) :=
  (List.range count).map (chunkAt contentLength count)

/-- Byte `k` of an `L`-byte resource is served for the inclusive range
request `bytes=seg.1-seg.2`: the server honours partial-content semantics
(spec §6), clamping the requested end to the last byte index `L - 1`. -/
def inChunk (L : Nat) (seg : Int × Int) (k : Nat) : Prop :=
  seg.1 ≤ (k : Int) ∧ (k : Int) ≤ min seg.2 ((L : Int) - 1)

instance (L : Nat) (seg : Int × Int) (k : Nat) : Decidable (inChunk L seg k) := by
  unfold inChunk; infer_instance

/-- The planner facts claim C1 is about, for content length `L`, segment
count `N` and a byte index `k`: exactly `N` chunks; chunk `i` is
`chunkAt L N i`; for `i < N - 1` that is `[i*cs, (i+1)*cs - 1]`; the last
chunk is `[(N-1)*cs, L]` (end offset `L`, not `L - 1`); and with ends
clamped to `L - 1` the chunks cover `[0, L)` exactly and disjointly. -/
def PlannerSpec (L N k : Nat) : Prop :=
  (chunks L N).length = N ∧
  (∀ i, i < N → (chunks L N)[i]? = some (chunkAt L N i)) ∧
  (∀ i, i < N - 1 → chunkAt L N i =
    (((i * chunk_size L N : Nat) : Int),
     (((i + 1) * chunk_size L N : Nat) : Int) - 1)) ∧
  chunkAt L N (N - 1) = ((((N - 1) * chunk_size L N : Nat) : Int), (L : Int)) ∧
  (k < L ↔ ∃ i, i < N ∧ inChunk L (chunkAt L N i) k) ∧
  (∀ i j, i < N → j < N →
    inChunk L (chunkAt L N i) k → inChunk L (chunkAt L N j) k → i = j)

/-- Source line 71: `int(r.headers.get('Content-Length', 0))` — a missing
Content-Length header defaults to 0; no error is raised. -/
def content_length_of (hdr : Option Nat) : Nat := hdr.getD 0

/-- Modelled from the spec: the HTTP server is outside this repository.
Spec §6 assumes the server honours `Range: bytes=a-b` partial-content
semantics, so the response body for a range request over an `L`-byte
resource consists of the bytes with indices in `[a, min b (L-1)]`, and is
empty for an unsatisfiable range. -/
def rangeLen (L : Nat) (a b : Int) : Nat :=
  if 0 ≤ a ∧ a < (L : Int) ∧ a ≤ b then (min b ((L : Int) - 1) - a + 1).toNat else 0

/-- Number of resource bytes segment `i` of the `(L, N)` plan is
responsible for: the response length of its planned range request, i.e.
the size its part file has after one complete fetch of the segment. -/
def seg_length (L N i : Nat) : Nat :=
  rangeLen L (chunkAt L N i).1 (chunkAt L N i).2

/-- Size of a part file after `Axel.getter` (lines 134-145) runs to
completion on it: the file is opened in append mode (line 139) and every
block of the ranged response is written, so it grows by the response
length for `Range: bytes=chunk.1-chunk.2`. -/
def getter_size (L oldSize : Nat) (chunk : Int × Int) : Nat :=
  oldSize + rangeLen L chunk.1 chunk.2

/-- One entry of the resume loop (lines 94-112) at listing position `i`
with part-file size `size`: `some none` is the complete branch (appends
`None`, size equal to `chunk_size`); `some (some r)` the refetch branch
(size different from the stored end offset `chunk.2` and below
`chunk_size`; appends `(chunk[0] + size, (i+1)*chunk_size - 1)`); `none`
the final `else`, which is `sys.exit(1)`. -/
def resume_step (cs : Nat) (chunk : Int × Int) (i : Nat) (size : Nat) :
    Option (Option (Int × Int)) :=
  if size = cs then some (none)
  else if (size : Int) ≠ chunk.2 ∧ size < cs then
    some (some (chunk.1 + (size : Int), (((i + 1) * cs : Nat) : Int) - 1))
  else none

/-- Loop `for i, f in enumerate(globs)` of `Axel.resume_check` (lines
94-112), pairing the glob entries positionally with `self.chunks`:
returns the `(new_chunks, startcount)` built, or `none` if some entry
took the `sys.exit(1)` branch.  A glob entry is `(index-in-name, size)`;
only its size and its listing position are ever used.  The arm for
exhausted chunks with glob entries remaining is unreachable in the
program (`len(globs) == self.count == len(self.chunks)`) and is mapped to
the abnormal outcome. -/
def resume_loop (cs : Nat) :
    List (Int × Int) → List (Nat × Nat) → Nat →
      Option (List (Option (Int × Int)) × List Nat)
  | _, [], _ => some ([], [])
  | [], _ :: _, _ => none
  | c :: crest, g :: grest, i =>
    match resume_step cs c i g.2 with
    | none => none
    | some nc =>
      match resume_loop cs crest grest (i + 1) with
      | none => none
      | some (ncs, starts) => some (nc :: ncs, g.2 :: starts)

/-- Outcome of `Axel.resume_check`: the updated plan and recorded start
counts, or one of its two `sys.exit(1)` sites — the size-mismatch exit
(line 112) and the count-mismatch exit (line 123), which reports the
number of part files detected (line 122). -/
inductive ResumeResult where
  | ok (newChunks : List (Option (Int × Int))) (startcount : List Nat)
  | exitSize
  | exitCount (detected : Nat)
deriving DecidableEq

/-- Function `Axel.resume_check` (lines 89-123).  `globs` is the result of
`glob.glob('%s.part*' % self.filename)` as `(index-in-name, size)` pairs
in listing order.  With exactly `count` matches the loop rewrites the
plan; with a non-zero different number it exits reporting the count; with
no matches it is a no-op and the original chunks all stay planned. -/
def resume_check (count cs : Nat) (chunks0 : List (Int × Int))
    (globs : List (Nat × Nat)) : ResumeResult :=
  if globs.length = count then
    match resume_loop cs chunks0 globs 0 with
    | none => .exitSize
    | some (ncs, starts) => .ok ncs starts
  else if globs.length ≠ 0 then .exitCount globs.length
  else .ok (chunks0.map some) []

/-- On-disk state the model tracks: the part files' contents (by segment
index) and the output file's contents, `none` while it does not exist.
Bytes are modelled as `Nat`s. -/
structure Disk where
  parts : List (List Nat)
  output : Option (List Nat)
deriving DecidableEq

/-- Block-copy loop of `Axel.stitch` (lines 191-194): `fileinput.input`
yields the part files' contents in the order of `self.files`, and every
block read is appended to the output file. -/
def stitch_output : List (List Nat) → List Nat → List Nat
  | [], acc => acc
  | f :: fs, acc => stitch_output fs (acc ++ f)

/-- Function `Axel.stitch` (lines 190-197): opens the output for writing,
copies every part file in the order of `self.files` — which was built in
ascending segment-index order at line 179 — then `os.unlink`s every part
file. -/
def stitch (d : Disk) : Disk :=
  { parts := [], output := some (stitch_output d.parts []) }

/-- Content of part file `i` after the fetch phase: a `none` chunk is
skipped (`if not chunk: continue`, lines 180-181) and the file keeps its
on-disk content; otherwise the spawned getter appends whatever bytes it
streamed before finishing or dying. -/
def part_after_fetch (chunk : Option (Int × Int)) (old streamed : List Nat) :
    List Nat :=
  match chunk with
  | none => old
  | some _ => old ++ streamed

/-- Part contents after the fetch phase, positionally: plan entry `i`
acts on the `i`-th old content with the `i`-th getter's streamed bytes. -/
def fetch_parts : List (Option (Int × Int)) → List (List Nat) → List (List Nat) →
    List (List Nat)
  | [], _, _ => []
  | c :: cs, old, streamed =>
    part_after_fetch c (old.headD []) (streamed.headD []) ::
      fetch_parts cs old.tail streamed.tail

/-- Outcome of a whole run: `sys.exit` with a code and the disk as left
behind, or normal completion with the final disk and whether any getter's
greenlet had raised. -/
inductive RunOutcome where
  | exited (code : Nat) (disk : Disk)
  | finished (disk : Disk) (someGetterFailed : Bool)
deriving DecidableEq

/-- Driver `Axel.fetch_n_stitch` (lines 199-201) started on a fresh
`Axel` (`content_length = 0`, so `fetch` first runs `get_file_info` and
`resume_check`, lines 167-169).  gevent's `Pool.join` (line 184) only
waits for the spawned greenlets: an exception raised inside `Axel.getter`
is printed by the gevent hub and otherwise swallowed, so `fetch` returns
normally and `stitch` runs even when a getter failed.  `hdr` is the
Content-Length header, `globs` the part files found on disk, `old` their
contents in listing order, `streamed` what each spawned getter writes
before finishing or dying, `failed` which getters raised. -/
def fetch_n_stitch (hdr : Option Nat) (count : Nat) (globs : List (Nat × Nat))
    (old streamed : List (List Nat)) (failed : List Bool) : RunOutcome :=
  match resume_check count (chunk_size (content_length_of hdr) count)
      (chunks (content_length_of hdr) count) globs with
  | .exitSize => .exited 1 ⟨old, none⟩
  | .exitCount _ => .exited 1 ⟨old, none⟩
  | .ok plan _ =>
    .finished (stitch ⟨fetch_parts plan old streamed, none⟩) (failed.any id)

/-- Test for the extension separator.  Python file names are modelled as
`List Char`. -/
def isDot (c : Char) : Bool := c = '.'

/-- Python `str.isdigit` for the ASCII names this program builds
(`ext[1:].isdigit()`, line 83): non-empty and all decimal digits. -/
def isdigit (s : List Char) : Bool := !s.isEmpty && s.all Char.isDigit

/-- Python `int(...)` on a digit string (line 84): decimal value, leading
zeros allowed. -/
def parseNat (s : List Char) : Nat :=
  s.foldl (fun a c => 10 * a + (c.toNat - 48)) 0

/-- Character for a decimal digit value. -/
def digitChar (d : Nat) : Char := Char.ofNat (48 + d)

/-- Digit accumulation for decimal rendering, fuel-indexed; fuel `n`
suffices for rendering `n`. -/
def natCharsGo : Nat → Nat → List Char → List Char
  | 0, _, acc => acc
  | fuel + 1, n, acc =>
    if n = 0 then acc else natCharsGo fuel (n / 10) (digitChar (n % 10) :: acc)

/-- Python `str` of a non-negative int (the `'%s'` formatting at line
85): decimal rendering without leading zeros. -/
def natChars (n : Nat) : List Char := if n = 0 then ['0'] else natCharsGo n n []

/-- Index of the last `'.'` in the string, if any. -/
def lastDot (s : List Char) : Option Nat :=
  (s.reverse.findIdx? isDot).map (fun rj => s.length - 1 - rj)

/-- Python `os.path.splitext` on a basename (line 82): split at the last
dot — unless that dot is at position 0 or everything before it is dots
(`.bashrc`-style names keep their dot); the extension keeps its dot. -/
def splitext (s : List Char) : List Char × List Char :=
  match lastDot s with
  | none => (s, [])
  | some i =>
    if 0 < i ∧ (s.take i).all isDot = false then (s.take i, s.drop i)
    else (s, [])

/-- One iteration of the collision loop body (lines 82-87): if the
extension minus its dot is purely numeric, replace it by that number plus
one; otherwise append `.0` to the whole name. -/
def next_filename (name : List Char) : List Char :=
  if isdigit ((splitext name).2.drop 1) then
    (splitext name).1 ++ '.' :: natChars (parseNat ((splitext name).2.drop 1) + 1)
  else name ++ ['.', '0']

/-- Loop `while os.path.isfile(self.filename)` (lines 81-87) against the
set of existing file names, fuel-indexed; `avail_filename_total` below
shows that `existing.length + 4` fuel always suffices. -/
def avail_filename (existing : List (List Char)) : Nat → List Char → Option (List Char)
  | 0, _ => none
  | fuel + 1, name =>
    if name ∈ existing then avail_filename existing fuel (next_filename name)
    else some name

/-- A base for which `splitext (p ++ '.' :: digits)` splits back into
`(p, '.' :: digits)`: non-empty and not made of dots only. -/
def GoodBase (p : List Char) : Prop := p ≠ [] ∧ p.all isDot = false

/-- Chunk lookup in the planner's list. -/
lemma chunks_getElem (L N i : Nat) (hi : i < N) :
    (chunks L N)[i]? = some (chunkAt L N i) := by
  simp [chunks, hi]

/-- First component of a planned chunk. -/
lemma chunkAt_fst (L N i : Nat) :
    (chunkAt L N i).1 = ((i * chunk_size L N : Nat) : Int) := rfl

/-- Stored end offset of the last chunk: the content length itself. -/
lemma chunkAt_snd_last (L N : Nat) : (chunkAt L N (N - 1)).2 = (L : Int) := by
  unfold chunkAt boundary
  rw [if_pos rfl]

/-- Stored end offset of a non-last chunk. -/
lemma chunkAt_snd (L N i : Nat) (h : i ≠ N - 1) :
    (chunkAt L N i).2 = (((i + 1) * chunk_size L N : Nat) : Int) - 1 := by
  unfold chunkAt boundary
  rw [if_neg h]

/-- Closed form of `seg_length`: segments before the last hold
`chunk_size` bytes, the last absorbs the division remainder. -/
lemma seg_length_eq (L N i : Nat) (hN : 1 ≤ N) (hi : i < N) :
    seg_length L N i =
      if i = N - 1 then L - (N - 1) * chunk_size L N else chunk_size L N := by
  have h2 : N * chunk_size L N ≤ L := by
    rw [Nat.mul_comm]
    exact Nat.div_mul_le_self L N
  rcases eq_or_ne i (N - 1) with h | h
  · subst h
    rw [if_pos rfl]
    unfold seg_length rangeLen
    rw [chunkAt_fst, chunkAt_snd_last]
    have h3 : (N - 1) * chunk_size L N ≤ N * chunk_size L N :=
      Nat.mul_le_mul_right _ (by omega)
    split_ifs with hc
    · omega
    · omega
  · rw [if_neg h]
    unfold seg_length rangeLen
    rw [chunkAt_fst, chunkAt_snd L N i h]
    have h3 : (i + 1) * chunk_size L N ≤ N * chunk_size L N :=
      Nat.mul_le_mul_right _ (by omega)
    have h4 : (i + 1) * chunk_size L N = i * chunk_size L N + chunk_size L N := by
      ring
    split_ifs with hc
    · omega
    · omega

/-- If some reachable entry of the resume loop takes the `sys.exit(1)`
branch, the whole loop exits. -/
lemma resume_loop_none_of_step_none (cs j : Nat) :
    ∀ (cl : List (Int × Int)) (gl : List (Nat × Nat)) (i0 : Nat)
      (c : Int × Int) (g : Nat × Nat),
      cl[j]? = some c → gl[j]? = some g →
      resume_step cs c (i0 + j) g.2 = none →
      resume_loop cs cl gl i0 = none := by
  induction j with
  | zero =>
    intro cl gl i0 c g hc hg hstep
    match cl, gl with
    | [], _ => simp at hc
    | _ :: _, [] => simp at hg
    | c0 :: ct, g0 :: gt =>
      rw [List.getElem?_cons_zero, Option.some.injEq] at hc hg
      subst hc
      subst hg
      rw [Nat.add_zero] at hstep
      unfold resume_loop
      rw [hstep]
  | succ j ih =>
    intro cl gl i0 c g hc hg hstep
    match cl, gl with
    | [], _ => simp at hc
    | _ :: _, [] => simp at hg
    | c0 :: ct, g0 :: gt =>
      rw [List.getElem?_cons_succ] at hc hg
      have h2 : resume_step cs c ((i0 + 1) + j) g.2 = none := by
        rw [show (i0 + 1) + j = i0 + (j + 1) by omega]
        exact hstep
      have h3 := ih ct gt (i0 + 1) c g hc hg h2
      unfold resume_loop
      rcases hs : resume_step cs c0 i0 g0.2 with _ | nc
      · rfl
      · simp [h3]

/-- The resume loop reads only each glob entry's size and position, never
the file name recorded in the entry. -/
lemma resume_loop_sizes_only (cs : Nat) :
    ∀ (g1 g2 : List (Nat × Nat)) (cl : List (Int × Int)) (i0 : Nat),
      g1.map Prod.snd = g2.map Prod.snd →
      resume_loop cs cl g1 i0 = resume_loop cs cl g2 i0 := by
  intro g1
  induction g1 with
  | nil =>
    intro g2 cl i0 h
    cases g2 with
    | nil => rfl
    | cons b bt => simp at h
  | cons a t1 ih =>
    intro g2 cl i0 h
    cases g2 with
    | nil => simp at h
    | cons b bt =>
      simp only [List.map_cons, List.cons.injEq] at h
      obtain ⟨h1, h2⟩ := h
      cases cl with
      | nil => rfl
      | cons c ct =>
        unfold resume_loop
        rw [h1, ih bt ct (i0 + 1) h2]

/-- Accumulator form of the stitch block-copy loop. -/
lemma stitch_output_eq (fs : List (List Nat)) :
    ∀ acc, stitch_output fs acc = acc ++ fs.flatten := by
  induction fs with
  | nil =>
    intro acc
    simp [stitch_output]
  | cons f ft ih =>
    intro acc
    simp [stitch_output, ih]

/-- Character value of a digit character. -/
lemma digitChar_toNat (d : Nat) (h : d < 10) : (digitChar d).toNat = 48 + d := by
  interval_cases d <;> decide

/-- Digit characters satisfy `Char.isDigit`. -/
lemma digitChar_isDigit (d : Nat) (h : d < 10) : (digitChar d).isDigit = true := by
  interval_cases d <;> decide

/-- Rendering accumulates by appending in front of `acc`. -/
lemma natCharsGo_append : ∀ (fuel n : Nat) (acc : List Char),
    natCharsGo fuel n acc = natCharsGo fuel n [] ++ acc := by
  intro fuel
  induction fuel with
  | zero =>
    intro n acc
    simp [natCharsGo]
  | succ f ih =>
    intro n acc
    unfold natCharsGo
    by_cases h : n = 0
    · simp [h]
    · rw [if_neg h, if_neg h, ih (n / 10) (digitChar (n % 10) :: acc),
        ih (n / 10) [digitChar (n % 10)]]
      simp

/-- Parsing inverts fuel-indexed rendering. -/
lemma parseNat_go : ∀ (fuel n : Nat), n ≤ fuel → ∀ (acc : List Char),
    List.foldl (fun a c => 10 * a + (c.toNat - 48)) 0 (natCharsGo fuel n acc) =
      List.foldl (fun a c => 10 * a + (c.toNat - 48)) n acc := by
  intro fuel
  induction fuel with
  | zero =>
    intro n hn acc
    interval_cases n
    rfl
  | succ f ih =>
    intro n hn acc
    by_cases h : n = 0
    · subst h
      rfl
    · unfold natCharsGo
      rw [if_neg h]
      have hd : (digitChar (n % 10)).toNat = 48 + n % 10 :=
        digitChar_toNat _ (Nat.mod_lt _ (by omega))
      rw [ih (n / 10) (by omega) (digitChar (n % 10) :: acc), List.foldl_cons]
      have harg : 10 * (n / 10) + ((digitChar (n % 10)).toNat - 48) = n := by
        rw [hd]
        omega
      rw [harg]

/-- Python `int` inverts Python `str` on non-negative integers. -/
lemma parseNat_natChars (n : Nat) : parseNat (natChars n) = n := by
  unfold parseNat natChars
  by_cases h : n = 0
  · subst h
    decide
  · rw [if_neg h]
    simpa using parseNat_go n n le_rfl []

/-- Decimal rendering is injective. -/
lemma natChars_inj {a b : Nat} (h : natChars a = natChars b) : a = b := by
  have h2 := congrArg parseNat h
  rwa [parseNat_natChars, parseNat_natChars] at h2

/-- Everything the renderer emits is a digit character. -/
lemma natCharsGo_digits : ∀ (fuel n : Nat) (acc : List Char),
    (∀ c ∈ acc, c.isDigit = true) →
    ∀ c ∈ natCharsGo fuel n acc, c.isDigit = true := by
  intro fuel
  induction fuel with
  | zero =>
    intro n acc hacc
    simpa [natCharsGo] using hacc
  | succ f ih =>
    intro n acc hacc
    unfold natCharsGo
    by_cases h : n = 0
    · rw [if_pos h]
      exact hacc
    · rw [if_neg h]
      refine ih (n / 10) _ ?_
      intro c hc
      rcases List.mem_cons.mp hc with h1 | h1
      · subst h1
        exact digitChar_isDigit _ (Nat.mod_lt _ (by omega))
      · exact hacc c h1

/-- Rendered numbers consist of digit characters. -/
lemma natChars_digits (n : Nat) : ∀ c ∈ natChars n, c.isDigit = true := by
  unfold natChars
  by_cases h : n = 0
  · rw [if_pos h]
    intro c hc
    simp at hc
    subst hc
    decide
  · rw [if_neg h]
    exact natCharsGo_digits n n [] (by simp)

/-- Rendered numbers contain no dot. -/
lemma natChars_no_dot (n : Nat) : ∀ c ∈ natChars n, isDot c = false := by
  intro c hc
  have hd := natChars_digits n c hc
  cases hdot : isDot c
  · rfl
  · exfalso
    have hc' : c = '.' := of_decide_eq_true hdot
    subst hc'
    simp at hd

/-- Rendered numbers are non-empty. -/
lemma natChars_ne_nil (n : Nat) : natChars n ≠ [] := by
  unfold natChars
  by_cases h : n = 0
  · rw [if_pos h]
    simp
  · rw [if_neg h]
    obtain ⟨m, rfl⟩ : ∃ m, n = m + 1 := ⟨n - 1, by omega⟩
    unfold natCharsGo
    rw [if_neg h, natCharsGo_append]
    simp

/-- Rendered numbers pass Python's `isdigit` test. -/
lemma isdigit_natChars (n : Nat) : isdigit (natChars n) = true := by
  unfold isdigit
  rw [Bool.and_eq_true]
  constructor
  · simp [natChars_ne_nil n]
  · rw [List.all_eq_true]
    exact fun c hc => natChars_digits n c hc

/-- Position of the last dot of `p ++ '.' :: ds` when `ds` has no dot. -/
lemma lastDot_append_num (p ds : List Char) (hds : ∀ c ∈ ds, isDot c = false) :
    lastDot (p ++ '.' :: ds) = some p.length := by
  unfold lastDot
  have hrev : (p ++ '.' :: ds).reverse = ds.reverse ++ '.' :: p.reverse := by
    rw [List.reverse_append, List.reverse_cons]
    simp
  rw [hrev]
  have h1 : ds.reverse.findIdx? isDot = none := by
    rw [List.findIdx?_eq_none_iff]
    intro c hc
    have := hds c (List.mem_reverse.mp hc)
    simp [this]
  rw [List.findIdx?_append, h1, Option.none_or, List.findIdx?_cons,
    if_pos (by decide : isDot '.' = true)]
  simp only [Option.map_some']
  congr 1
  simp only [List.length_append, List.length_cons, List.length_reverse]
  omega

/-- Splitting `p ++ '.' :: ds` recovers `(p, '.' :: ds)` for a good base. -/
lemma splitext_append_num (p ds : List Char) (hp : GoodBase p)
    (hds : ∀ c ∈ ds, isDot c = false) :
    splitext (p ++ '.' :: ds) = (p, '.' :: ds) := by
  simp only [splitext, lastDot_append_num p ds hds]
  rw [if_pos ⟨List.length_pos.mpr hp.1, by rw [List.take_left]; exact hp.2⟩]
  rw [List.take_left, List.drop_left]

/-- In numeric mode, one loop iteration increments the suffix number. -/
lemma next_numName (p : List Char) (k : Nat) (hp : GoodBase p) :
    next_filename (p ++ '.' :: natChars k) = p ++ '.' :: natChars (k + 1) := by
  unfold next_filename
  rw [splitext_append_num p (natChars k) hp (natChars_no_dot k)]
  dsimp only
  rw [List.drop_one, List.tail_cons, if_pos (isdigit_natChars k), parseNat_natChars k]

/-- When `splitext` does not split, the loop appends `.0`. -/
lemma next_no_split (name : List Char) (h : splitext name = (name, [])) :
    next_filename name = name ++ ['.', '0'] := by
  unfold next_filename
  rw [h]
  dsimp only
  rw [if_neg (by decide)]

/-- Appending `.0` to a dots-only (possibly empty) name still yields a
name `splitext` refuses to split. -/
lemma splitext_alldots (name : List Char) (h : name.all isDot = true) :
    splitext (name ++ ['.', '0']) = (name ++ ['.', '0'], []) := by
  have hld : lastDot (name ++ ['.', '0']) = some name.length :=
    lastDot_append_num name ['0'] (by intro c hc; simp at hc; subst hc; decide)
  simp only [splitext, hld]
  rw [if_neg]
  rintro ⟨h1, h2⟩
  rw [List.take_left] at h2
  simp [h] at h2

/-- A numeric extension forces a genuine split with a good base. -/
lemma splitext_digit_good (name : List Char)
    (h : isdigit ((splitext name).2.drop 1) = true) : GoodBase (splitext name).1 := by
  rcases hld : lastDot name with _ | i
  · simp only [splitext, hld] at h
    simp [isdigit] at h
  · by_cases hc : 0 < i ∧ (name.take i).all isDot = false
    · simp only [splitext, hld]
      rw [if_pos hc]
      refine ⟨?_, hc.2⟩
      intro hteq
      rcases List.take_eq_nil_iff.mp hteq with h1 | h1
      · omega
      · subst h1
        simp [lastDot] at hld
    · simp only [splitext, hld, if_neg hc] at h
      simp [isdigit] at h

/-- Each loop iteration either lands in numeric mode directly, or appends
`.0` to a dots-only name, after which the following iteration lands in
numeric mode. -/
lemma next_cases (name : List Char) :
    (∃ p k, GoodBase p ∧ next_filename name = p ++ '.' :: natChars k) ∨
    (next_filename name = name ++ ['.', '0'] ∧ GoodBase (name ++ ['.', '0']) ∧
     next_filename (name ++ ['.', '0']) = (name ++ ['.', '0']) ++ '.' :: natChars 0) := by
  by_cases hd : isdigit ((splitext name).2.drop 1) = true
  · left
    exact ⟨(splitext name).1, parseNat ((splitext name).2.drop 1) + 1,
      splitext_digit_good name hd, by unfold next_filename; rw [if_pos hd]⟩
  · by_cases hall : name.all isDot = true
    · right
      have hgood : GoodBase (name ++ ['.', '0']) := by
        refine ⟨by simp, ?_⟩
        rw [List.all_append]
        simp [isDot]
      refine ⟨?_, hgood, ?_⟩
      · unfold next_filename
        rw [if_neg hd]
      · exact next_no_split _ (splitext_alldots name hall)
    · left
      have hne : name ≠ [] := by
        rintro rfl
        simp at hall
      have hfalse : name.all isDot = false := by
        cases hb : name.all isDot
        · rfl
        · exact absurd hb hall
      refine ⟨name, 0, ⟨hne, hfalse⟩, ?_⟩
      unfold next_filename
      rw [if_neg hd]
      rfl

/-- Numeric-mode candidates are pairwise distinct. -/
lemma numName_inj (p : List Char) {a b : Nat}
    (h : p ++ '.' :: natChars a = p ++ '.' :: natChars b) : a = b := by
  have h2 := List.append_cancel_left h
  injection h2 with _ h3
  exact natChars_inj h3

/-- Among the first `existing.length + 1` numeric-mode candidates, at
least one does not collide with an existing file. -/
lemma exists_fresh (existing : List (List Char)) (p : List Char) (k : Nat) :
    ∃ j, j ≤ existing.length ∧ p ++ '.' :: natChars (k + j) ∉ existing := by
  by_contra hcon
  push_neg at hcon
  have hinj : Function.Injective (fun j : Nat => p ++ '.' :: natChars (k + j)) := by
    intro a b hab
    have := numName_inj p hab
    omega
  have hsub : (Finset.range (existing.length + 1)).image
      (fun j => p ++ '.' :: natChars (k + j)) ⊆ existing.toFinset := by
    intro x hx
    rw [Finset.mem_image] at hx
    obtain ⟨j, hj, rfl⟩ := hx
    rw [List.mem_toFinset]
    exact hcon j (by simp at hj; omega)
  have hcard := Finset.card_le_card hsub
  rw [Finset.card_image_of_injective _ hinj, Finset.card_range] at hcard
  have := List.toFinset_card_le existing
  omega

/-- One-step unfolding of the collision loop. -/
lemma avail_succ (existing : List (List Char)) (fuel : Nat) (name : List Char) :
    avail_filename existing (fuel + 1) name =
      if name ∈ existing then avail_filename existing fuel (next_filename name)
      else some name := rfl

/-- From a numeric-mode candidate, enough fuel reaches a fresh name. -/
lemma avail_of_fresh (existing : List (List Char)) (p : List Char)
    (hp : GoodBase p) :
    ∀ (fuel k : Nat), (∃ j, j < fuel ∧ p ++ '.' :: natChars (k + j) ∉ existing) →
      ∃ r, avail_filename existing fuel (p ++ '.' :: natChars k) = some r ∧
        r ∉ existing := by
  intro fuel
  induction fuel with
  | zero =>
    intro k hex
    obtain ⟨j, hj, -⟩ := hex
    omega
  | succ f ih =>
    intro k hex
    by_cases hmem : p ++ '.' :: natChars k ∈ existing
    · have hstep : avail_filename existing (f + 1) (p ++ '.' :: natChars k) =
          avail_filename existing f (p ++ '.' :: natChars (k + 1)) := by
        rw [avail_succ, if_pos hmem, next_numName p k hp]
      rw [hstep]
      obtain ⟨j, hj, hfr⟩ := hex
      have hj0 : j ≠ 0 := by
        rintro rfl
        rw [Nat.add_zero] at hfr
        exact hfr hmem
      exact ih (k + 1)
        ⟨j - 1, by omega, by rw [show k + 1 + (j - 1) = k + j by omega]; exact hfr⟩
    · refine ⟨p ++ '.' :: natChars k, ?_, hmem⟩
      rw [avail_succ, if_neg hmem]

/-- The collision loop terminates: `existing.length + 4` fuel always
yields a name that does not collide with any existing file. -/
lemma avail_filename_total (existing : List (List Char)) (name : List Char) :
    ∃ r, avail_filename existing (existing.length + 4) name = some r ∧
      r ∉ existing := by
  rw [show existing.length + 4 = (existing.length + 3) + 1 from rfl, avail_succ]
  by_cases h0 : name ∈ existing
  · rw [if_pos h0]
    rcases next_cases name with ⟨p, k, hp, hsh⟩ | ⟨h1, hg, h2⟩
    · rw [hsh]
      obtain ⟨j, hj, hfr⟩ := exists_fresh existing p k
      exact avail_of_fresh existing p hp (existing.length + 3) k ⟨j, by omega, hfr⟩
    · rw [h1, show existing.length + 3 = (existing.length + 2) + 1 from rfl,
        avail_succ]
      by_cases h1m : name ++ ['.', '0'] ∈ existing
      · rw [if_pos h1m, h2]
        obtain ⟨j, hj, hfr⟩ := exists_fresh existing (name ++ ['.', '0']) 0
        exact avail_of_fresh existing (name ++ ['.', '0']) hg
          (existing.length + 2) 0 ⟨j, by omega, hfr⟩
      · exact ⟨name ++ ['.', '0'], by rw [if_neg h1m], h1m⟩
  · rw [if_neg h0]
    exact ⟨name, rfl, h0⟩

/-- Membership in chunk `i`, characterised over `Nat` arithmetic. -/
lemma inChunk_chunkAt_iff (L N i k : Nat) (hN : 1 ≤ N) (hi : i < N) :
    inChunk L (chunkAt L N i) k ↔
      i * chunk_size L N ≤ k ∧ k < L ∧
        (i < N - 1 → k < (i + 1) * chunk_size L N) := by
  have hproj : inChunk L (chunkAt L N i) k ↔
      (((i * chunk_size L N : Nat) : Int) ≤ (k : Int) ∧
        (k : Int) ≤ min (boundary L N i) ((L : Int) - 1)) := Iff.rfl
  rw [hproj]
  unfold boundary
  rcases eq_or_ne i (N - 1) with h | h
  · rw [if_pos h]
    constructor
    · rintro ⟨h1, h2⟩
      exact ⟨by omega, by omega, fun hlt => by omega⟩
    · rintro ⟨h1, h2, -⟩
      exact ⟨by omega, by omega⟩
  · have hi' : i < N - 1 := by omega
    rw [if_neg h]
    constructor
    · rintro ⟨h1, h2⟩
      exact ⟨by omega, by omega, fun _ => by omega⟩
    · rintro ⟨h1, h2, h3⟩
      have h4 := h3 hi'
      exact ⟨by omega, by omega⟩

/-- C1 (amended): for every `L` and `N ≥ 1` the planner produces exactly
`N` chunks with `chunkSize = ⌊L / N⌋`; chunk `i < N - 1` is
`[i*chunkSize, (i+1)*chunkSize - 1]`; the **last** chunk is
`[(N-1)*chunkSize, L]` — its end offset is the content length itself, one
past the final byte index `L - 1` — and, with each end clamped to `L - 1`
as a partial-content server does, the chunks are non-overlapping and their
union is exactly `[0, L)`. -/
theorem get_file_info_plan (L N : Nat) (hN : 1 ≤ N) (k : Nat) :
    PlannerSpec L N k := by
  refine ⟨by simp [chunks], ?_, ?_, ?_, ?_, ?_⟩
  · intro i hi
    simp [chunks, hi]
  · intro i hi
    unfold chunkAt boundary
    rw [if_neg (by omega)]
  · unfold chunkAt boundary
    rw [if_pos rfl]
  · constructor
    · intro hk
      rcases Nat.eq_zero_or_pos (chunk_size L N) with h0 | hpos
      · refine ⟨N - 1, by omega, ?_⟩
        rw [inChunk_chunkAt_iff L N _ k hN (by omega)]
        refine ⟨by simp [h0], hk, fun h => by omega⟩
      · by_cases hq : k / chunk_size L N < N - 1
        · refine ⟨k / chunk_size L N, by omega, ?_⟩
          rw [inChunk_chunkAt_iff L N _ k hN (by omega)]
          have h1 : k / chunk_size L N * chunk_size L N ≤ k :=
            Nat.div_mul_le_self k _
          have h2 : chunk_size L N * (k / chunk_size L N) + k % chunk_size L N = k :=
            Nat.div_add_mod k _
          have h3 : k % chunk_size L N < chunk_size L N := Nat.mod_lt _ hpos
          have h4 : (k / chunk_size L N + 1) * chunk_size L N =
              chunk_size L N * (k / chunk_size L N) + chunk_size L N := by ring
          exact ⟨by omega, hk, fun _ => by omega⟩
        · refine ⟨N - 1, by omega, ?_⟩
          rw [inChunk_chunkAt_iff L N _ k hN (by omega)]
          have h1 : (N - 1) * chunk_size L N ≤ k / chunk_size L N * chunk_size L N :=
            Nat.mul_le_mul_right _ (by omega)
          have h2 : k / chunk_size L N * chunk_size L N ≤ k :=
            Nat.div_mul_le_self k _
          exact ⟨by omega, hk, fun h => by omega⟩
    · rintro ⟨i, hi, hmem⟩
      exact ((inChunk_chunkAt_iff L N i k hN hi).mp hmem).2.1
  · intro i j hi hj h1 h2
    rw [inChunk_chunkAt_iff L N i k hN hi] at h1
    rw [inChunk_chunkAt_iff L N j k hN hj] at h2
    by_contra hne
    rcases Nat.lt_or_ge i j with hlt | hge
    · have hi' : i < N - 1 := by omega
      have h5 := h1.2.2 hi'
      have hle : (i + 1) * chunk_size L N ≤ j * chunk_size L N :=
        Nat.mul_le_mul_right _ (by omega)
      have h6 := h2.1
      omega
    · have hlt : j < i := by omega
      have hj' : j < N - 1 := by omega
      have h5 := h2.2.2 hj'
      have hle : (j + 1) * chunk_size L N ≤ i * chunk_size L N :=
        Nat.mul_le_mul_right _ (by omega)
      have h6 := h1.1
      omega

/-- Witness for `get_file_info_plan` at `L = 10`, `N = 3`, `k = 7`. -/
theorem get_file_info_plan_witness : 1 ≤ 3 ∧ PlannerSpec 10 3 7 :=
  ⟨by decide, get_file_info_plan 10 3 (by decide) 7⟩

/-- C1 counterexample: at `L = 10`, `N = 2` the planner's last chunk is
`(5, 10)`, not `((2-1)*chunkSize, 10 - 1) = (5, 9)` as the claim states:
the stored end offset of the last segment is `contentLength`, not
`contentLength - 1`. -/
theorem get_file_info_last_chunk_cex :
    (chunks 10 2)[1]? = some (5, 10) ∧
      (chunks 10 2)[1]? ≠
        some ((((2 - 1) * chunk_size 10 2 : Nat) : Int), (10 : Int) - 1) := by
  constructor <;> decide

/-- C7: the stitcher's output is byte-for-byte the concatenation of the
part files in the order given (ascending segment index, per line 179),
its length is the sum of the part-file lengths — for lengths
`[5, 7, 3]` that is 15 — and every part file is deleted afterwards. -/
theorem stitch_concatenates (parts : List (List Nat)) (out0 : Option (List Nat)) :
    (stitch ⟨parts, out0⟩).output = some parts.flatten ∧
    (stitch ⟨parts, out0⟩).parts = [] ∧
    (stitch ⟨parts, out0⟩).output.map List.length =
      some (parts.map List.length).sum := by
  refine ⟨?_, rfl, ?_⟩
  · unfold stitch
    rw [stitch_output_eq]
    simp
  · unfold stitch
    rw [stitch_output_eq]
    simp [List.length_flatten]

/-- C6: a non-zero part-file count different from `count` makes
`resume_check` report the detected number of part files and exit with
status 1, and the driver aborts with the part files untouched and no
output file created. -/
theorem resume_count_mismatch_aborts (hdr : Option Nat) (count : Nat)
    (globs : List (Nat × Nat)) (old streamed : List (List Nat))
    (failed : List Bool) (h1 : globs ≠ []) (h2 : globs.length ≠ count) :
    resume_check count (chunk_size (content_length_of hdr) count)
        (chunks (content_length_of hdr) count) globs = .exitCount globs.length ∧
    fetch_n_stitch hdr count globs old streamed failed = .exited 1 ⟨old, none⟩ := by
  have hc : resume_check count (chunk_size (content_length_of hdr) count)
      (chunks (content_length_of hdr) count) globs = .exitCount globs.length := by
    unfold resume_check
    rw [if_neg h2, if_pos (fun h => h1 (List.length_eq_zero.mp h))]
  refine ⟨hc, ?_⟩
  unfold fetch_n_stitch
  rw [hc]

/-- Witness for `resume_count_mismatch_aborts`: one part file found while
eight were requested. -/
theorem resume_count_mismatch_aborts_witness :
    resume_check 8 (chunk_size (content_length_of (some 100)) 8)
        (chunks (content_length_of (some 100)) 8) [(0, 5)] = .exitCount 1 ∧
    fetch_n_stitch (some 100) 8 [(0, 5)] [[1, 2, 3, 4, 5]] [] [] =
      .exited 1 ⟨[[1, 2, 3, 4, 5]], none⟩ :=
  resume_count_mismatch_aborts (some 100) 8 [(0, 5)] [[1, 2, 3, 4, 5]] [] []
    (by decide) (by decide)

/-- C10: with all `N` part files present, a part file whose size equals
the numeric value of its segment's stored end offset while being short of
the segment's byte length does not take the refetch branch: the loop's
final `else` branch runs `sys.exit(1)` and the driver aborts before any
fetch, leaving the disk unchanged. -/
theorem resume_size_eq_end_offset_exits (hdr : Option Nat) (N i s : Nat)
    (globs : List (Nat × Nat)) (old streamed : List (List Nat))
    (failed : List Bool) (hN : 1 ≤ N) (hi : i < N) (hlen : globs.length = N)
    (hg : globs[i]? = some (i, s))
    (heq : (s : Int) = (chunkAt (content_length_of hdr) N i).2)
    (hlt : s < seg_length (content_length_of hdr) N i) :
    resume_step (chunk_size (content_length_of hdr) N)
        (chunkAt (content_length_of hdr) N i) i s = none ∧
    resume_check N (chunk_size (content_length_of hdr) N)
        (chunks (content_length_of hdr) N) globs = .exitSize ∧
    fetch_n_stitch hdr N globs old streamed failed = .exited 1 ⟨old, none⟩ := by
  rw [seg_length_eq (content_length_of hdr) N i hN hi] at hlt
  have hstep : resume_step (chunk_size (content_length_of hdr) N)
      (chunkAt (content_length_of hdr) N i) i s = none := by
    rcases eq_or_ne i (N - 1) with h | h
    · subst h
      rw [chunkAt_snd_last] at heq
      have hs : s = content_length_of hdr := by exact_mod_cast heq
      rw [if_pos rfl] at hlt
      exact absurd hlt (by omega)
    · rw [if_neg h] at hlt
      rw [chunkAt_snd _ N i h] at heq
      unfold resume_step
      rw [if_neg (by omega), chunkAt_snd _ N i h, if_neg (fun hc => hc.1 heq)]
  have hloop : resume_loop (chunk_size (content_length_of hdr) N)
      (chunks (content_length_of hdr) N) globs 0 = none := by
    refine resume_loop_none_of_step_none _ i _ _ 0 (chunkAt (content_length_of hdr) N i)
      (i, s) (chunks_getElem _ N i hi) hg ?_
    rw [Nat.zero_add]
    exact hstep
  have hcheck : resume_check N (chunk_size (content_length_of hdr) N)
      (chunks (content_length_of hdr) N) globs = .exitSize := by
    unfold resume_check
    rw [if_pos hlen, hloop]
  refine ⟨hstep, hcheck, ?_⟩
  unfold fetch_n_stitch
  rw [hcheck]

/-- Witness for `resume_size_eq_end_offset_exits`: at `L = 10`, `N = 2`,
segment 0's part file has 4 bytes — one byte short of its 5-byte range,
yet numerically equal to the stored end offset `(1*5)-1 = 4` — and the
run exits 1 instead of resuming. -/
theorem resume_size_eq_end_offset_exits_witness :
    resume_step (chunk_size (content_length_of (some 10)) 2)
        (chunkAt (content_length_of (some 10)) 2 0) 0 4 = none ∧
    resume_check 2 (chunk_size (content_length_of (some 10)) 2)
        (chunks (content_length_of (some 10)) 2) [(0, 4), (1, 5)] = .exitSize ∧
    fetch_n_stitch (some 10) 2 [(0, 4), (1, 5)]
        [[9, 9, 9, 9], [9, 9, 9, 9, 9]] [] [] =
      .exited 1 ⟨[[9, 9, 9, 9], [9, 9, 9, 9, 9]], none⟩ :=
  resume_size_eq_end_offset_exits (some 10) 2 0 4 [(0, 4), (1, 5)]
    [[9, 9, 9, 9], [9, 9, 9, 9, 9]] [] [] (by decide) (by decide) (by decide)
    (by decide) (by decide) (by decide)

/-- C9 (amended): the reconciled plan is a function of the sizes in
listing order alone — each part file's size is applied to the segment at
the file's *position* in the listing, and the index recorded in the file
name is ignored entirely. -/
theorem resume_check_positional (count cs : Nat) (chunks0 : List (Int × Int))
    (g1 g2 : List (Nat × Nat)) (h : g1.map Prod.snd = g2.map Prod.snd) :
    resume_check count cs chunks0 g1 = resume_check count cs chunks0 g2 := by
  have hlen : g1.length = g2.length := by
    have h2 := congrArg List.length h
    simpa using h2
  unfold resume_check
  rw [hlen, resume_loop_sizes_only cs g1 g2 chunks0 0 h]

/-- Witness for `resume_check_positional`: renaming the listed files
(indices 0,7 versus 9,1) while keeping the size sequence leaves the
reconciled plan unchanged. -/
theorem resume_check_positional_witness :
    resume_check 2 (chunk_size 10 2) (chunks 10 2) [(0, 5), (7, 3)] =
      resume_check 2 (chunk_size 10 2) (chunks 10 2) [(9, 5), (1, 3)] :=
  resume_check_positional 2 (chunk_size 10 2) (chunks 10 2)
    [(0, 5), (7, 3)] [(9, 5), (1, 3)] (by decide)

/-- C9 counterexample: the same two part files (segment 0 complete with 5
bytes, segment 1 partial with 3) listed in the two possible glob orders
yield different reconciled plans, because sizes are applied by listing
position, not by the index in the file name. -/
theorem resume_glob_order_dependent_cex :
    ([((0 : Nat), (5 : Nat)), (1, 3)]).Perm [(1, 3), (0, 5)] ∧
    resume_check 2 (chunk_size 10 2) (chunks 10 2) [(0, 5), (1, 3)] =
      .ok [none, some (8, 9)] [5, 3] ∧
    resume_check 2 (chunk_size 10 2) (chunks 10 2) [(1, 3), (0, 5)] =
      .ok [some (3, 4), none] [3, 5] ∧
    resume_check 2 (chunk_size 10 2) (chunks 10 2) [(0, 5), (1, 3)] ≠
      resume_check 2 (chunk_size 10 2) (chunks 10 2) [(1, 3), (0, 5)] := by
  refine ⟨by decide, by decide, by decide, by decide⟩

/-- C5 (amended): a missing Content-Length header is defaulted to 0 —
there is no `MetadataError` anywhere in the program — and the run
proceeds: the planner still builds `count` chunks and, with no part files
on disk, the driver goes on to fetch and stitch instead of aborting. -/
theorem missing_content_length_proceeds (count : Nat)
    (old streamed : List (List Nat)) (failed : List Bool) :
    content_length_of none = 0 ∧
    (chunks (content_length_of none) count).length = count ∧
    ∃ d b, fetch_n_stitch none count [] old streamed failed = .finished d b := by
  refine ⟨rfl, by simp [chunks], ?_⟩
  unfold fetch_n_stitch resume_check
  rcases eq_or_ne count 0 with h | h
  · subst h
    exact ⟨_, _, rfl⟩
  · rw [if_neg (by simpa [eq_comm] using h), if_neg (by simp)]
    exact ⟨_, _, rfl⟩

/-- C5 counterexample: with no Content-Length header and `count = 2` the
run does not abort — the content length becomes 0, a 2-chunk plan
`[(0, -1), (0, 0)]` is built, both chunks stay planned for fetching, and
the run finishes by stitching an (empty) output file. -/
theorem missing_content_length_cex :
    content_length_of none = 0 ∧
    resume_check 2 (chunk_size (content_length_of none) 2)
        (chunks (content_length_of none) 2) [] =
      .ok [some (0, -1), some (0, 0)] [] ∧
    fetch_n_stitch none 2 [] [[], []] [[], []] [false, false] =
      .finished ⟨[], some []⟩ false := by
  refine ⟨by decide, by decide, by decide⟩

/-- C2 (code bug): gevent's `Pool.join` does not re-raise exceptions of
dead greenlets, so a failed segment fetch still falls through to
`stitch`.  Here segment 1's getter dies after streaming 2 of its 5
bytes, yet the run completes: the output file is created (7 bytes,
missing a range) and both part files are deleted, instead of the run
being reported failed with the part files preserved. -/
theorem fetch_failure_still_stitches_cex :
    fetch_n_stitch (some 10) 2 [] [[], []]
        [[100, 101, 102, 103, 104], [105, 106]] [false, true] =
      .finished ⟨[], some [100, 101, 102, 103, 104, 105, 106]⟩ true := by
  decide

/-- C3 (code bug): at `L = 10`, `N = 3` every part file has exactly its
segment's full byte length (3, 3 and 4 — the last segment absorbs the
remainder), yet the resume loop compares the last size against
`chunk_size = 3`, neither branch matches (`4 ≠ 3` and `¬ 4 < 3`), and the
run exits 1 instead of marking all segments complete and stitching. -/
theorem resume_all_complete_exits_cex :
    seg_length 10 3 0 = 3 ∧ seg_length 10 3 1 = 3 ∧ seg_length 10 3 2 = 4 ∧
    resume_check 3 (chunk_size 10 3) (chunks 10 3) [(0, 3), (1, 3), (2, 4)] =
      .exitSize ∧
    fetch_n_stitch (some 10) 3 [(0, 3), (1, 3), (2, 4)]
        [[7, 7, 7], [7, 7, 7], [7, 7, 7, 7]] [] [] =
      .exited 1 ⟨[[7, 7, 7], [7, 7, 7], [7, 7, 7, 7]], none⟩ := by
  refine ⟨by decide, by decide, by decide, by decide, by decide⟩

/-- C4 (code bug): resuming at `L = 10`, `N = 3` with the last part file
holding 2 of its 4 bytes, the loop does plan a refetch from offset
`6 + 2 = 8`, but recomputes the end as `(i+1)*chunk_size - 1 = 8` instead
of the segment's end byte 9: the resumed getter appends a single byte and
the part file ends at 3 bytes, one short of the segment's length. -/
theorem resume_last_segment_truncates_cex :
    resume_check 3 (chunk_size 10 3) (chunks 10 3) [(0, 3), (1, 3), (2, 2)] =
      .ok [none, none, some (8, 8)] [3, 3, 2] ∧
    seg_length 10 3 2 = 4 ∧
    ((8 : Int), (8 : Int)) ≠ ((8 : Int), (9 : Int)) ∧
    getter_size 10 2 (8, 8) = 3 := by
  refine ⟨by decide, by decide, by decide, by decide⟩

/-- C8: output filename collision resolution (lines 80-87).  With
`file.txt` on disk the candidate becomes `file.txt.0`; with `file.txt.0`
also present it becomes `file.txt.1`.  In general one iteration
increments a purely numeric extension and otherwise appends `.0`, and the
loop always terminates — `existing.length + 4` iterations suffice — with
a name that collides with no existing file. -/
theorem get_file_info_filename_suffix :
    avail_filename ["file.txt".toList] 8 "file.txt".toList =
      some "file.txt.0".toList ∧
    avail_filename ["file.txt".toList, "file.txt.0".toList] 8 "file.txt".toList =
      some "file.txt.1".toList ∧
    (∀ name, isdigit ((splitext name).2.drop 1) = true →
      next_filename name =
        (splitext name).1 ++ '.' ::
          natChars (parseNat ((splitext name).2.drop 1) + 1)) ∧
    (∀ name, isdigit ((splitext name).2.drop 1) = false →
      next_filename name = name ++ ['.', '0']) ∧
    (∀ existing name, ∃ r,
      avail_filename existing (existing.length + 4) name = some r ∧
        r ∉ existing) := by
  refine ⟨by decide, by decide, ?_, ?_, avail_filename_total⟩
  · intro name h
    unfold next_filename
    rw [if_pos h]
  · intro name h
    unfold next_filename
    rw [if_neg (by rw [h]; decide)]

/-- Witness for `get_file_info_filename_suffix`: `file.txt.4` has the
purely numeric extension `4`, and one iteration yields `file.txt.5`. -/
theorem get_file_info_filename_suffix_witness :
    isdigit ((splitext "file.txt.4".toList).2.drop 1) = true ∧
    next_filename "file.txt.4".toList =
      (splitext "file.txt.4".toList).1 ++ '.' ::
        natChars (parseNat ((splitext "file.txt.4".toList).2.drop 1) + 1) :=
  ⟨by decide, get_file_info_filename_suffix.2.2.1 "file.txt.4".toList (by decide)⟩

end Pyaxel
